import Mathlib

/-!
Shallow embedding of `cheryl.py`, a solver for knowledge puzzles in the style
of Cheryl's birthday.  Candidates are tuples of values (modelled as `List Int`),
each player privately knows one dimension, and statements about who knows what
progressively filter the candidate set.

Python runtime errors are modelled explicitly: the module's own exception
classes (`NoSolutionError`, `MultipleSolutionsError`, `BadPlayerNamesError`,
`InvalidStatementError`) plus `AttributeError` (calling a method on the `None`
returned by `Game.get_player` for an unknown name) and `IndexError` (indexing
an empty list).  Fallible operations return `Except Err`.
-/

namespace Cheryl

/-- Tri-valued knowledge state, mirroring the `Knows` enum of `cheryl.py`
(`no = -1`, `maybe = 0`, `yes = 1`). -/
inductive Knows where
  | no
  | maybe
  | yes
deriving DecidableEq

/-- A candidate is a tuple of values, one per dimension/player. -/
abbrev Candidate := List Int

/-- Error kinds: the module's exception classes, plus the Python runtime
errors that the code can hit (`AttributeError` from calling a method on
`None`, `IndexError` from indexing an empty list). -/
inductive Err where
  | BadPlayerNamesError
  | NoSolutionError
  | InvalidStatementError
  | MultipleSolutionsError
  | AttributeError
  | IndexError
deriving DecidableEq

/-- A player: a name and the 0-based index of the dimension Cheryl tells
this player. -/
structure Player where
  name : String
  index : Nat
deriving DecidableEq

/-- Mirrors `Player.get_compatible`: all candidates whose value at the
player's index equals the truth's value at that index
(`[e for e in candidates if e[self.index] == truth[self.index]]`).
Out-of-range indexing is compared via `List.get?`; within well-formed
games the index is always in range. -/
def Player.get_compatible (p : Player) (truth : Candidate)
    (candidates : List Candidate) : List Candidate :=
  candidates.filter (fun e => decide (e.get? p.index = truth.get? p.index))

/-- Mirrors the module-level `knows`: `Knows.yes` if exactly one compatible
candidate remains, else `Knows.no`. -/
def knows (compatible : List Candidate) : Knows :=
  if compatible.length = 1 then Knows.yes else Knows.no

/-- Mirrors the module-level `knows_cases`: `yes` if all cases are `yes`,
`no` if all cases are `no`, `maybe` otherwise.  (On `[]`, `all` is vacuously
true, so the result is `yes`.) -/
def knows_cases (cases : List Knows) : Knows :=
  if cases.all (fun case => decide (case = Knows.yes)) then Knows.yes
  else if cases.all (fun case => decide (case = Knows.no)) then Knows.no
  else Knows.maybe

/-- Mirrors `Player.would_know`: compute `knows (get_compatible truth
candidates)` for each truth, then aggregate with `knows_cases`. -/
def Player.would_know (p : Player) (truths : List Candidate)
    (candidates : List Candidate) : Knows :=
  knows_cases (truths.map (fun truth => knows (p.get_compatible truth candidates)))

/-- A game: the live candidate set (the Python code stores a `set`; here a
duplicate-free list stands for it) and the roster of players. -/
structure Game where
  candidates : List Candidate
  players : List Player
deriving DecidableEq

/-- Mirrors `Game.__init__`: `n_players` is the arity of the first candidate
(`candidates[0]` raises `IndexError` on an empty list), the candidate list is
collapsed to a set (`dedup`), absent names default to stringified dimension
indices, explicit names must be duplicate-free and match the arity. -/
def mkGame (candidates : List Candidate) (player_names : Option (List String)) :
    Except Err Game :=
  match candidates with
  | [] => .error Err.IndexError
  | c0 :: _ =>
    let n_players := c0.length
    match player_names with
    | none =>
      .ok { candidates := candidates.dedup,
            players := (List.range n_players).map (fun i => ⟨toString i, i⟩) }
    | some names =>
      if names.length ≠ names.dedup.length then .error Err.BadPlayerNamesError
      else if names.length ≠ n_players then .error Err.BadPlayerNamesError
      else .ok { candidates := candidates.dedup,
                 players := names.enum.map (fun p => ⟨p.2, p.1⟩) }

/-- Mirrors `Game.get_player`: first player with the given name, `none`
(Python `None`, via falling off the loop) when no player matches. -/
def Game.get_player (g : Game) (name : String) : Option Player :=
  g.players.find? (fun player => decide (player.name = name))

/-- Mirrors `Game.get_player_names`. -/
def Game.get_player_names (g : Game) : List String :=
  g.players.map Player.name

/-- A key of a Statement's `facts` dict: either a single player name or a
tuple of player names. -/
inductive Who where
  | single (name : String)
  | group (names : List String)
deriving DecidableEq

/-- Mirrors `Statement`: an author plus the `facts` dict (here an association
list; Python dict keys are unique). -/
structure Statement where
  author : String
  facts : List (Who × Knows)
deriving DecidableEq

/-- Mirrors `Statement.__init__`'s validation: a tuple key must not contain
the author's name, else `InvalidStatementError`. -/
def mkStatement (author : String) (facts : List (Who × Knows)) :
    Except Err Statement :=
  if facts.any (fun f =>
      match f.1 with
      | Who.single _ => false
      | Who.group names => names.any (fun n => decide (n = author))) then
    .error Err.InvalidStatementError
  else .ok ⟨author, facts⟩

/-- Dict membership and lookup `self.facts[author.name]` for a string key:
only `Who.single` keys can equal a string. -/
def lookupFact (facts : List (Who × Knows)) (name : String) : Option Knows :=
  (facts.find? (fun f => decide (f.1 = Who.single name))).map Prod.snd

/-- Mirrors the Python comparison `who == author` inside
`Statement.true_for`: `who` is a dict key (a string or a tuple of strings)
while `author` is a `Player` object, so the comparison is always `False` --
the intended skip of the author's key never happens. -/
def whoMatchesAuthor (_ : Who) (_ : Player) : Bool := false

/-- The group branch of `Statement.true_for`: for each name in the tuple key,
`game.get_player(name).would_know(...)` is computed (crashing with
`AttributeError` at the first unknown name, with no short-circuit on an
earlier match). -/
def mapWouldKnow (g : Game) (truths : List Candidate) :
    List String → Except Err (List Knows)
  | [] => .ok []
  | name :: rest =>
    match g.get_player name with
    | none => .error Err.AttributeError
    | some p =>
      match mapWouldKnow g truths rest with
      | .error e => .error e
      | .ok ks => .ok (p.would_know truths g.candidates :: ks)

/-- The loop of `Statement.true_for` over `self.facts.items()`: group keys
require at least one member whose `would_know` equals the expected value,
single keys require the named player's `would_know` to equal it exactly. -/
def checkFacts (g : Game) (author : Player) (author_compatible : List Candidate) :
    List (Who × Knows) → Except Err Bool
  | [] => .ok true
  | (who, expected) :: rest =>
    if whoMatchesAuthor who author then
      checkFacts g author author_compatible rest
    else
      match who with
      | Who.group names =>
        match mapWouldKnow g author_compatible names with
        | .error e => .error e
        | .ok ks =>
          if ks.any (fun k => decide (k = expected)) then
            checkFacts g author author_compatible rest
          else .ok false
      | Who.single name =>
        match g.get_player name with
        | none => .error Err.AttributeError
        | some player =>
          if player.would_know author_compatible g.candidates ≠ expected then
            .ok false
          else checkFacts g author author_compatible rest

/-- Mirrors `Statement.true_for`: look up the author (an unknown author name
makes Python crash with `AttributeError` on the subsequent method call),
compute the author's compatible set, pre-check the author's own key via
`knows`, then run the loop over all keys. -/
def Statement.true_for (s : Statement) (cand : Candidate) (g : Game) :
    Except Err Bool :=
  match g.get_player s.author with
  | none => .error Err.AttributeError
  | some author =>
    if (lookupFact s.facts author.name).isSome ∧
        some (knows (author.get_compatible cand g.candidates)) ≠
          lookupFact s.facts author.name then
      .ok false
    else checkFacts g author (author.get_compatible cand g.candidates) s.facts

/-- Resolvability of one `facts` entry: every player name it mentions is in
the game's roster (otherwise `true_for` hits an `AttributeError`). -/
def factResolves (g : Game) (f : Who × Knows) : Bool :=
  match f.1 with
  | Who.single n => (g.get_player n).isSome
  | Who.group ns => ns.all (fun n => (g.get_player n).isSome)

/-- The property the loop of `true_for` checks for one `facts` entry: a
single-player key demands that player's `would_know` equal the expected
value; a group key demands it of at least one member. -/
def factHolds (g : Game) (truths : List Candidate) (f : Who × Knows) : Prop :=
  match f with
  | (Who.single n, k) =>
      ∀ p, g.get_player n = some p → p.would_know truths g.candidates = k
  | (Who.group ns, k) =>
      ∃ n ∈ ns, ∃ p, g.get_player n = some p ∧
        p.would_know truths g.candidates = k

/-- The list comprehension loop of `Game.filter`: keep candidates for which
the statement evaluates true, propagating any crash from `true_for`. -/
def filterTrueFor (s : Statement) (g : Game) :
    List Candidate → Except Err (List Candidate)
  | [] => .ok []
  | cand :: rest =>
    match s.true_for cand g with
    | .error e => .error e
    | .ok b =>
      match filterTrueFor s g rest with
      | .error e => .error e
      | .ok l => .ok (if b then cand :: l else l)

/-- Mirrors `Game.filter`: evaluate the statement for every current candidate
(against the pre-filter set, which `true_for` receives as `g`), raise
`NoSolutionError` when nothing survives, otherwise build a new `Game` from
the survivors and the same player names. -/
def Game.filter (g : Game) (s : Statement) : Except Err Game :=
  match filterTrueFor s g g.candidates with
  | .error e => .error e
  | .ok filtered =>
    if filtered = [] then .error Err.NoSolutionError
    else mkGame filtered (some g.get_player_names)

/-- Mirrors `Game.filter_chain` (the `trace` parameter only prints, so it is
omitted): apply `filter` for each statement in order, propagating errors. -/
def Game.filter_chain (g : Game) : List Statement → Except Err Game
  | [] => .ok g
  | s :: rest =>
    match g.filter s with
    | .error e => .error e
    | .ok g' => g'.filter_chain rest

/-- Mirrors `Game.n_solutions`: the size of the final candidate set, with
`NoSolutionError` (and only that error) converted to `0`. -/
def Game.n_solutions (g : Game) (statements : List Statement) : Except Err Nat :=
  match g.filter_chain statements with
  | .ok g' => .ok g'.candidates.length
  | .error Err.NoSolutionError => .ok 0
  | .error e => .error e

/-- Mirrors `Game.get_solution`: run the chain, raise
`MultipleSolutionsError` when more than one candidate survives, otherwise
return `list(candidates)[0]` (an `IndexError` on an empty set, reachable only
for a game whose candidate set was empty to begin with). -/
def Game.get_solution (g : Game) (statements : List Statement) :
    Except Err Candidate :=
  match g.filter_chain statements with
  | .error e => .error e
  | .ok g' =>
    if g'.candidates.length > 1 then .error Err.MultipleSolutionsError
    else
      match g'.candidates with
      | [] => .error Err.IndexError
      | c :: _ => .ok c

/-! Concrete instances: the canonical Cheryl's-birthday candidate set from the
module's demo scenario, and a game on which re-applying a statement strictly
narrows the candidate set a second time. -/

/-- The canonical Cheryl's-birthday candidate pool (month, day). -/
def demoCands : List Candidate :=
  [[5,15],[5,16],[5,19],[6,17],[6,18],[7,14],[7,16],[8,14],[8,15],[8,17]]

/-- Statement 1: author "0" says neither "0" nor "1" knows. -/
def demoStmt1 : Statement :=
  ⟨"0", [(Who.single "0", Knows.no), (Who.single "1", Knows.no)]⟩

/-- Statement 2: author "1" says "1" now knows. -/
def demoStmt2 : Statement := ⟨"1", [(Who.single "1", Knows.yes)]⟩

/-- Statement 3: author "0" says "0" now knows. -/
def demoStmt3 : Statement := ⟨"0", [(Who.single "0", Knows.yes)]⟩

/-- The demo game as built by the constructor with default player names. -/
def demoGame : Game :=
  ⟨demoCands, [⟨"0", 0⟩, ⟨"1", 1⟩]⟩

/-- The demo game after statement 1. -/
def demoGame1 : Game :=
  ⟨[[7,14],[7,16],[8,14],[8,15],[8,17]], [⟨"0", 0⟩, ⟨"1", 1⟩]⟩

/-- The demo game after statements 1 and 2. -/
def demoGame2 : Game :=
  ⟨[[7,16],[8,15],[8,17]], [⟨"0", 0⟩, ⟨"1", 1⟩]⟩

/-- The demo game after all three statements. -/
def demoGame3 : Game :=
  ⟨[[7,16]], [⟨"0", 0⟩, ⟨"1", 1⟩]⟩

/-- Candidate pool on which filtering by `cexStmt` is not idempotent. -/
def cexCands : List Candidate :=
  [[1,60],[1,61],[2,60],[2,61],[3,50],[3,60],[4,77],[4,50]]

/-- Author "0" asserts that player "1" does not know. -/
def cexStmt : Statement := ⟨"0", [(Who.single "1", Knows.no)]⟩

/-- The game built from `cexCands` with default player names. -/
def cexGame : Game :=
  ⟨cexCands, [⟨"0", 0⟩, ⟨"1", 1⟩]⟩

/-- `cexGame` after one application of `cexStmt`. -/
def cexGame1 : Game :=
  ⟨[[1,60],[1,61],[2,60],[2,61],[3,50],[3,60]], [⟨"0", 0⟩, ⟨"1", 1⟩]⟩

/-- `cexGame1` after a second application of `cexStmt`. -/
def cexGame2 : Game :=
  ⟨[[1,60],[1,61],[2,60],[2,61]], [⟨"0", 0⟩, ⟨"1", 1⟩]⟩

/-- A one-player game used to witness the statement-evaluation theorem. -/
def wGame : Game := ⟨[[1],[2]], [⟨"0", 0⟩]⟩

/-- Its author says they know the answer. -/
def wStmt : Statement := ⟨"0", [(Who.single "0", Knows.yes)]⟩

/-- Claim C3: on the game built from the canonical candidates with default
player names "0" and "1", statement 1 narrows the candidate set to
(7,14),(7,16),(8,14),(8,15),(8,17); statement 2 then to (7,16),(8,15),(8,17);
statement 3 then to (7,16) alone; and `get_solution` on the chained three
statements returns (7,16). -/
theorem demo_chain :
    mkGame demoCands none = .ok demoGame ∧
    demoGame.filter demoStmt1 = .ok demoGame1 ∧
    demoGame1.filter demoStmt2 = .ok demoGame2 ∧
    demoGame2.filter demoStmt3 = .ok demoGame3 ∧
    demoGame.get_solution [demoStmt1, demoStmt2, demoStmt3] = .ok [7,16] :=
  ⟨rfl, rfl, rfl, rfl, rfl⟩

/-- Any candidate kept by the filtering loop was already a candidate. -/
theorem filterTrueFor_subset (s : Statement) (g : Game) (l l' : List Candidate)
    (h : filterTrueFor s g l = .ok l') : ∀ c ∈ l', c ∈ l := by
  induction l generalizing l' with
  | nil =>
    simp only [filterTrueFor] at h
    cases h
    intro c hc
    exact absurd hc (List.not_mem_nil c)
  | cons cand rest ih =>
    simp only [filterTrueFor] at h
    cases htf : s.true_for cand g with
    | error e => rw [htf] at h; cases h
    | ok b =>
      rw [htf] at h
      cases hrest : filterTrueFor s g rest with
      | error e => rw [hrest] at h; cases h
      | ok l₀ =>
        rw [hrest] at h
        cases h
        intro c hc
        cases b with
        | true =>
          simp only [if_true] at hc
          rcases List.mem_cons.mp hc with hc | hc
          · exact hc ▸ List.mem_cons_self cand rest
          · exact List.mem_cons_of_mem _ (ih l₀ hrest c hc)
        | false =>
          simp only [Bool.false_eq_true, if_false] at hc
          exact List.mem_cons_of_mem _ (ih l₀ hrest c hc)

/-- A successfully constructed game's candidate set is the deduplicated
input list. -/
theorem mkGame_candidates (candidates : List Candidate)
    (player_names : Option (List String)) (g : Game)
    (h : mkGame candidates player_names = .ok g) :
    g.candidates = candidates.dedup := by
  cases candidates with
  | nil => simp only [mkGame] at h; cases h
  | cons c0 rest =>
    cases player_names with
    | none => simp only [mkGame] at h; cases h; rfl
    | some names =>
      simp only [mkGame] at h
      split at h
      · cases h
      · split at h
        · cases h
        · cases h; rfl

/-- A successful `filter` only keeps candidates of the original game. -/
theorem filter_subset (g g' : Game) (s : Statement)
    (h : g.filter s = .ok g') : ∀ c ∈ g'.candidates, c ∈ g.candidates := by
  simp only [Game.filter] at h
  cases hf : filterTrueFor s g g.candidates with
  | error e => rw [hf] at h; cases h
  | ok filtered =>
    rw [hf] at h
    by_cases hemp : filtered = []
    · simp [hemp] at h
    · simp only [hemp, if_false] at h
      intro c hc
      have hc' : c ∈ filtered := by
        have := mkGame_candidates filtered (some g.get_player_names) g' h
        rw [this] at hc
        exact List.mem_dedup.mp hc
      exact filterTrueFor_subset s g g.candidates filtered hf c hc'

/-- Claim C4, amended: applying the same statement twice in a row, when both
applications succeed, yields a candidate set that is a subset of (but not in
general equal to) the candidate set after a single application. -/
theorem filter_twice_subset (g g₁ g₂ : Game) (s : Statement)
    (h₁ : g.filter s = .ok g₁) (h₂ : g₁.filter s = .ok g₂) :
    ∀ c ∈ g₂.candidates, c ∈ g₁.candidates :=
  filter_subset g₁ g₂ s h₂

/-- Witness for `filter_twice_subset` on the concrete counterexample game. -/
theorem filter_twice_subset_witness : ([1,60] : Candidate) ∈ cexGame1.candidates :=
  filter_twice_subset cexGame cexGame1 cexGame2 cexStmt rfl rfl [1,60] (by decide)

/-- Claim C4, counterexample: applying `cexStmt` to `cexGame` succeeds and
yields `cexGame1`; applying it once more also succeeds, yet the candidate set
shrinks further, so filtering is not idempotent. -/
theorem filter_idem_counterexample :
    cexGame.filter cexStmt = .ok cexGame1 ∧
    cexGame1.filter cexStmt = .ok cexGame2 ∧
    cexGame2.candidates ≠ cexGame1.candidates :=
  ⟨rfl, rfl, by decide⟩

/-- An `all` over `decide (· = k₀)` is the pointwise universal statement. -/
theorem all_eq_iff (l : List Knows) (k₀ : Knows) :
    (l.all (fun case => decide (case = k₀)) = true) ↔ ∀ k ∈ l, k = k₀ := by
  simp [List.all_eq_true]

/-- Claim C6: `knows` returns `yes` exactly when one candidate remains, `no`
otherwise, and in particular returns `no` (rather than failing) on the empty
collection. -/
theorem knows_spec (c : List Candidate) :
    (knows c = Knows.yes ↔ c.length = 1) ∧
    (knows c = Knows.no ↔ c.length ≠ 1) ∧
    knows [] = Knows.no := by
  unfold knows
  by_cases h : c.length = 1 <;> simp [h]

/-- Claim C5: `knows_cases` returns `yes` iff every case is `yes`, `no` iff
the list is non-empty and every case is `no`, and `maybe` otherwise; the
empty list yields `yes` (the vacuous convention), and the result depends only
on which values occur, not on their order or multiplicity. -/
theorem knows_cases_spec :
    (∀ cases : List Knows,
      (knows_cases cases = Knows.yes ↔ ∀ k ∈ cases, k = Knows.yes)) ∧
    (∀ cases : List Knows,
      (knows_cases cases = Knows.no ↔ cases ≠ [] ∧ ∀ k ∈ cases, k = Knows.no)) ∧
    (∀ cases : List Knows,
      (knows_cases cases = Knows.maybe ↔
        ¬(∀ k ∈ cases, k = Knows.yes) ∧ ¬(∀ k ∈ cases, k = Knows.no))) ∧
    knows_cases [] = Knows.yes ∧
    (∀ l l' : List Knows, (∀ k, k ∈ l ↔ k ∈ l') →
      knows_cases l = knows_cases l') := by
  have key : ∀ cases : List Knows,
      (knows_cases cases = Knows.yes ↔ ∀ k ∈ cases, k = Knows.yes) ∧
      (knows_cases cases = Knows.no ↔
        ¬(∀ k ∈ cases, k = Knows.yes) ∧ ∀ k ∈ cases, k = Knows.no) ∧
      (knows_cases cases = Knows.maybe ↔
        ¬(∀ k ∈ cases, k = Knows.yes) ∧ ¬(∀ k ∈ cases, k = Knows.no)) := by
    intro cases
    unfold knows_cases
    by_cases hy : ∀ k ∈ cases, k = Knows.yes
    · rw [if_pos ((all_eq_iff cases Knows.yes).mpr hy)]
      exact ⟨iff_of_true rfl hy,
        iff_of_false (fun h => Knows.noConfusion h) (fun hc => hc.1 hy),
        iff_of_false (fun h => Knows.noConfusion h) (fun hc => hc.1 hy)⟩
    · rw [if_neg (fun hb => hy ((all_eq_iff cases Knows.yes).mp hb))]
      by_cases hn : ∀ k ∈ cases, k = Knows.no
      · rw [if_pos ((all_eq_iff cases Knows.no).mpr hn)]
        exact ⟨iff_of_false (fun h => Knows.noConfusion h) hy,
          iff_of_true rfl ⟨hy, hn⟩,
          iff_of_false (fun h => Knows.noConfusion h) (fun hc => hc.2 hn)⟩
      · rw [if_neg (fun hb => hn ((all_eq_iff cases Knows.no).mp hb))]
        exact ⟨iff_of_false (fun h => Knows.noConfusion h) hy,
          iff_of_false (fun h => Knows.noConfusion h) (fun hc => hn hc.2),
          iff_of_true rfl ⟨hy, hn⟩⟩
  have hne : ∀ cases : List Knows, cases ≠ [] → (∀ k ∈ cases, k = Knows.no) →
      ¬(∀ k ∈ cases, k = Knows.yes) := by
    intro cases hc hn hy
    cases cases with
    | nil => exact hc rfl
    | cons a l =>
      have h1 := hn a (List.mem_cons_self a l)
      have h2 := hy a (List.mem_cons_self a l)
      rw [h1] at h2
      cases h2
  refine ⟨fun cases => (key cases).1, ?_, fun cases => (key cases).2.2, by decide, ?_⟩
  · intro cases
    rw [(key cases).2.1]
    constructor
    · rintro ⟨hy, hn⟩
      refine ⟨?_, hn⟩
      intro hnil
      subst hnil
      exact hy (by simp)
    · rintro ⟨hnil, hn⟩
      exact ⟨hne cases hnil hn, hn⟩
  · intro l l' h
    have tr : ∀ k₀ : Knows, (∀ k ∈ l, k = k₀) ↔ (∀ k ∈ l', k = k₀) := by
      intro k₀
      constructor
      · intro hh k hk
        exact hh k ((h k).mpr hk)
      · intro hh k hk
        exact hh k ((h k).mp hk)
    unfold knows_cases
    by_cases hy : ∀ k ∈ l, k = Knows.yes
    · rw [if_pos ((all_eq_iff l Knows.yes).mpr hy),
        if_pos ((all_eq_iff l' Knows.yes).mpr ((tr Knows.yes).mp hy))]
    · rw [if_neg (fun hb => hy ((all_eq_iff l Knows.yes).mp hb)),
        if_neg (fun hb => hy ((tr Knows.yes).mpr ((all_eq_iff l' Knows.yes).mp hb)))]
      by_cases hn : ∀ k ∈ l, k = Knows.no
      · rw [if_pos ((all_eq_iff l Knows.no).mpr hn),
          if_pos ((all_eq_iff l' Knows.no).mpr ((tr Knows.no).mp hn))]
      · rw [if_neg (fun hb => hn ((all_eq_iff l Knows.no).mp hb)),
          if_neg (fun hb => hn ((tr Knows.no).mpr ((all_eq_iff l' Knows.no).mp hb)))]

/-- Witness for `knows_cases_spec`: the order/multiplicity-independence
conjunct applied at concrete lists. -/
theorem knows_cases_spec_witness :
    knows_cases [Knows.yes, Knows.no] = knows_cases [Knows.no, Knows.yes, Knows.yes] :=
  knows_cases_spec.2.2.2.2 [Knows.yes, Knows.no] [Knows.no, Knows.yes, Knows.yes]
    (fun k => by cases k <;> simp)

/-- Membership in a player's compatible set. -/
theorem mem_get_compatible (p : Player) (t e : Candidate)
    (candidates : List Candidate) :
    e ∈ p.get_compatible t candidates ↔
      e ∈ candidates ∧ e.get? p.index = t.get? p.index := by
  simp [Player.get_compatible, List.mem_filter]

/-- Claim C7, counterexample: a truth tuple of the right arity that is not
itself one of the candidates is absent from its own compatible set -- the
candidate set `[[1,2]]` is non-empty, `[1,3]` shares the player's indexed
value, yet `get_compatible` does not contain it. -/
theorem get_compatible_counterexample :
    ([[1,2]] : List Candidate) ≠ [] ∧
    (Player.mk "0" 0).get_compatible [1,3] [[1,2]] = [[1,2]] ∧
    ([1,3] : Candidate) ∉ (Player.mk "0" 0).get_compatible [1,3] [[1,2]] := by
  refine ⟨by decide, rfl, by decide⟩

/-- Claim C7, amended: for a truth `t` that is itself one of the candidates,
`get_compatible` contains `t`, and an element belongs to the result exactly
when it is a candidate sharing `t`'s value at the player's index. -/
theorem get_compatible_spec (p : Player) (t : Candidate)
    (candidates : List Candidate)
    (hne : candidates ≠ []) (ht : t ∈ candidates) :
    t ∈ p.get_compatible t candidates ∧
    (∀ e, e ∈ p.get_compatible t candidates ↔
      e ∈ candidates ∧ e.get? p.index = t.get? p.index) := by
  refine ⟨(mem_get_compatible p t t candidates).mpr ⟨ht, rfl⟩,
    fun e => mem_get_compatible p t e candidates⟩

/-- Witness for `get_compatible_spec` at a concrete player and candidate
pool. -/
theorem get_compatible_spec_witness :
    ([5,15] : Candidate) ∈ (Player.mk "0" 0).get_compatible [5,15] demoCands :=
  (get_compatible_spec (Player.mk "0" 0) [5,15] demoCands (by decide) (by decide)).1

/-- A found player bears the requested name. -/
theorem get_player_name_eq (g : Game) (name : String) (p : Player)
    (h : g.get_player name = some p) : p.name = name := by
  have := List.find?_some h
  simpa using this

/-- A found player belongs to the roster. -/
theorem get_player_mem (g : Game) (name : String) (p : Player)
    (h : g.get_player name = some p) : p ∈ g.players :=
  List.mem_of_find?_eq_some h

/-- Find-by-name over a duplicate-free roster locates any listed player. -/
theorem find_name_unique (name : String) (p : Player) (l : List Player)
    (hnod : (l.map Player.name).Nodup) (hp : p ∈ l) (hname : p.name = name) :
    l.find? (fun player => decide (player.name = name)) = some p := by
  induction l with
  | nil => exact absurd hp (List.not_mem_nil p)
  | cons q rest ih =>
    simp only [List.map_cons, List.nodup_cons] at hnod
    by_cases hq : q.name = name
    · have hpq : p = q := by
        rcases List.mem_cons.mp hp with h | h
        · exact h
        · exfalso
          apply hnod.1
          rw [hq, ← hname]
          exact List.mem_map_of_mem Player.name h
      rw [List.find?_cons_of_pos _ (by simpa using hq), hpq]
    · have hp' : p ∈ rest := by
        rcases List.mem_cons.mp hp with h | h
        · exact absurd (h ▸ hname) hq
        · exact h
      rw [List.find?_cons_of_neg _ (by simpa using hq)]
      exact ih hnod.2 hp'

/-- Claim C10: `get_player` returns `none` (not an error) exactly when the
name is absent from the roster; a successful lookup returns a roster player
with the requested name, and over a duplicate-free roster it returns the
unique player bearing the name. -/
theorem get_player_spec (g : Game) (name : String) :
    (g.get_player name = none ↔ name ∉ g.players.map Player.name) ∧
    (∀ p, g.get_player name = some p → p ∈ g.players ∧ p.name = name) ∧
    ((g.players.map Player.name).Nodup →
      ∀ p ∈ g.players, p.name = name → g.get_player name = some p) := by
  refine ⟨?_, fun p h => ⟨get_player_mem g name p h, get_player_name_eq g name p h⟩,
    fun hnod p hp hname => find_name_unique name p g.players hnod hp hname⟩
  unfold Game.get_player
  rw [List.find?_eq_none]
  constructor
  · intro h hmem
    rcases List.mem_map.mp hmem with ⟨p, hp, hpname⟩
    exact h p hp (by simpa using hpname)
  · intro h p hp hdec
    have hpname : p.name = name := by simpa using hdec
    exact absurd (hpname ▸ List.mem_map_of_mem Player.name hp) h

/-- Witness for `get_player_spec`: looking up "0" in the demo game. -/
theorem get_player_spec_witness :
    demoGame.get_player "0" = some (Player.mk "0" 0) :=
  (get_player_spec demoGame "0").2.2 (by decide) (Player.mk "0" 0) (by decide) rfl

/-- Claim C8: `n_solutions` reports the size of the candidate set reached by
chaining the statements, and reports 0 when a filter step empties the set
(the `NoSolutionError` case); the original game's stored candidate set is
untouched in either case -- `filter` builds a fresh `Game` and never writes
back, which the functional embedding reflects. -/
theorem n_solutions_spec (g : Game) (statements : List Statement) :
    (∀ g', g.filter_chain statements = .ok g' →
      g.n_solutions statements = .ok g'.candidates.length) ∧
    (g.filter_chain statements = .error Err.NoSolutionError →
      g.n_solutions statements = .ok 0) := by
  constructor
  · intro g' h
    unfold Game.n_solutions
    rw [h]
  · intro h
    unfold Game.n_solutions
    rw [h]

/-- Witness for `n_solutions_spec`: the demo game with the whole statement
chain has exactly one solution. -/
theorem n_solutions_spec_witness :
    demoGame.n_solutions [demoStmt1, demoStmt2, demoStmt3] = .ok 1 :=
  (n_solutions_spec demoGame [demoStmt1, demoStmt2, demoStmt3]).1 demoGame3 rfl

/-- Claim C9: `get_solution` returns the unique candidate when chained
filtering ends with exactly one; propagates `NoSolutionError` when a filter
step empties the set; and raises the distinct `MultipleSolutionsError` when
more than one candidate survives. -/
theorem get_solution_spec (g : Game) (statements : List Statement) :
    (∀ g' c, g.filter_chain statements = .ok g' → g'.candidates = [c] →
      g.get_solution statements = .ok c) ∧
    (g.filter_chain statements = .error Err.NoSolutionError →
      g.get_solution statements = .error Err.NoSolutionError) ∧
    (∀ g', g.filter_chain statements = .ok g' → 1 < g'.candidates.length →
      g.get_solution statements = .error Err.MultipleSolutionsError) := by
  refine ⟨?_, ?_, ?_⟩
  · intro g' c h hone
    unfold Game.get_solution
    rw [h]
    simp only [hone]
    rfl
  · intro h
    unfold Game.get_solution
    rw [h]
  · intro g' h hgt
    unfold Game.get_solution
    rw [h]
    have hgt' : g'.candidates.length > 1 := hgt
    simp [hgt']

/-- Witness for `get_solution_spec`: the demo game solved with the full
chain yields the unique candidate (7,16). -/
theorem get_solution_spec_witness :
    demoGame.get_solution [demoStmt1, demoStmt2, demoStmt3] = .ok [7,16] :=
  (get_solution_spec demoGame [demoStmt1, demoStmt2, demoStmt3]).1 demoGame3 [7,16]
    rfl rfl

/-- Unfolding `mkGame` on a non-empty list with explicit names. -/
theorem mkGame_some_eq (c0 : Candidate) (rest : List Candidate)
    (names : List String) :
    mkGame (c0 :: rest) (some names) =
      if names.length ≠ names.dedup.length then .error Err.BadPlayerNamesError
      else if names.length ≠ c0.length then .error Err.BadPlayerNamesError
      else .ok ⟨(c0 :: rest).dedup,
        names.enum.map (fun p => ⟨p.2, p.1⟩)⟩ := rfl

/-- Unfolding `true_for` once the author is resolved. -/
theorem true_for_eq (g : Game) (s : Statement) (cand : Candidate)
    (author : Player) (hp : g.get_player s.author = some author) :
    s.true_for cand g =
      if (lookupFact s.facts author.name).isSome ∧
          some (knows (author.get_compatible cand g.candidates)) ≠
            lookupFact s.facts author.name then
        .ok false
      else checkFacts g author (author.get_compatible cand g.candidates) s.facts := by
  unfold Statement.true_for
  rw [hp]

/-- Unfolding `Game.filter` once the filtering loop has run. -/
theorem filter_eq (g : Game) (s : Statement) (l' : List Candidate)
    (h : filterTrueFor s g g.candidates = .ok l') :
    g.filter s = if l' = [] then .error Err.NoSolutionError
                 else mkGame l' (some g.get_player_names) := by
  unfold Game.filter
  rw [h]

/-- The group branch never crashes when every member name resolves. -/
theorem mapWouldKnow_isOk (g : Game) (truths : List Candidate)
    (names : List String)
    (h : ∀ n ∈ names, (g.get_player n).isSome = true) :
    ∃ ks, mapWouldKnow g truths names = .ok ks := by
  induction names with
  | nil => exact ⟨[], rfl⟩
  | cons n rest ih =>
    obtain ⟨p, hp⟩ := Option.isSome_iff_exists.mp (h n (List.mem_cons_self n rest))
    obtain ⟨ks, hks⟩ := ih (fun m hm => h m (List.mem_cons_of_mem n hm))
    refine ⟨p.would_know truths g.candidates :: ks, ?_⟩
    simp only [mapWouldKnow, hp, hks]

/-- The knowledge values collected for a group key are exactly the
`would_know` values of its resolvable members. -/
theorem mapWouldKnow_mem (g : Game) (truths : List Candidate)
    (names : List String) (ks : List Knows)
    (h : mapWouldKnow g truths names = .ok ks) (k : Knows) :
    k ∈ ks ↔ ∃ n ∈ names, ∃ p, g.get_player n = some p ∧
      p.would_know truths g.candidates = k := by
  induction names generalizing ks with
  | nil =>
    simp only [mapWouldKnow] at h
    cases h
    simp
  | cons n rest ih =>
    simp only [mapWouldKnow] at h
    cases hp : g.get_player n with
    | none => rw [hp] at h; cases h
    | some p =>
      rw [hp] at h
      cases hrest : mapWouldKnow g truths rest with
      | error e => rw [hrest] at h; cases h
      | ok ks₀ =>
        rw [hrest] at h
        cases h
        constructor
        · intro hk
          rcases List.mem_cons.mp hk with hk | hk
          · exact ⟨n, List.mem_cons_self n rest, p, hp, hk.symm⟩
          · obtain ⟨m, hm, q, hq, hwq⟩ := (ih ks₀ hrest).mp hk
            exact ⟨m, List.mem_cons_of_mem n hm, q, hq, hwq⟩
        · rintro ⟨m, hm, q, hq, hwq⟩
          rcases List.mem_cons.mp hm with hm | hm
          · subst hm
            rw [hp] at hq
            cases hq
            exact hwq ▸ List.mem_cons_self _ _
          · exact List.mem_cons_of_mem _ ((ih ks₀ hrest).mpr ⟨m, hm, q, hq, hwq⟩)

/-- The loop of `true_for` neither crashes (when every key resolves) nor
returns anything but a boolean, and it returns `true` exactly when every
entry of `facts` holds. -/
theorem checkFacts_spec (g : Game) (author : Player) (truths : List Candidate)
    (facts : List (Who × Knows))
    (hres : ∀ f ∈ facts, factResolves g f = true) :
    (checkFacts g author truths facts = .ok true ∨
     checkFacts g author truths facts = .ok false) ∧
    (checkFacts g author truths facts = .ok true ↔
      ∀ f ∈ facts, factHolds g truths f) := by
  induction facts with
  | nil =>
    refine ⟨Or.inl rfl, ?_⟩
    simp [checkFacts]
  | cons f rest ih =>
    obtain ⟨who, expected⟩ := f
    have hres_head : factResolves g (who, expected) = true :=
      hres _ (List.mem_cons_self _ _)
    have hres_rest : ∀ f ∈ rest, factResolves g f = true :=
      fun f hf => hres f (List.mem_cons_of_mem _ hf)
    obtain ⟨ihok, ihiff⟩ := ih hres_rest
    cases who with
    | single n =>
      simp only [factResolves] at hres_head
      obtain ⟨p, hp⟩ := Option.isSome_iff_exists.mp hres_head
      simp only [checkFacts, whoMatchesAuthor, Bool.false_eq_true, if_false, hp]
      by_cases hw : p.would_know truths g.candidates = expected
      · rw [if_neg (fun hcon => hcon hw)]
        refine ⟨ihok, ?_⟩
        rw [ihiff, List.forall_mem_cons]
        have hh : factHolds g truths (Who.single n, expected) := by
          intro q hq
          rw [hp] at hq
          cases hq
          exact hw
        exact (and_iff_right hh).symm
      · rw [if_pos hw]
        refine ⟨Or.inr rfl, iff_of_false (by simp) ?_⟩
        intro hall
        exact hw ((List.forall_mem_cons.mp hall).1 p hp)
    | group ns =>
      simp only [factResolves] at hres_head
      have hres_ns : ∀ n ∈ ns, (g.get_player n).isSome = true := by
        simpa [List.all_eq_true] using hres_head
      obtain ⟨ks, hks⟩ := mapWouldKnow_isOk g truths ns hres_ns
      simp only [checkFacts, whoMatchesAuthor, Bool.false_eq_true, if_false, hks]
      by_cases hany : ks.any (fun k => decide (k = expected)) = true
      · rw [if_pos hany]
        refine ⟨ihok, ?_⟩
        rw [ihiff, List.forall_mem_cons]
        have hh : factHolds g truths (Who.group ns, expected) := by
          obtain ⟨k, hk, hke⟩ := List.any_eq_true.mp hany
          have hke' : k = expected := of_decide_eq_true hke
          obtain ⟨n, hn, p, hp, hwp⟩ := (mapWouldKnow_mem g truths ns ks hks k).mp hk
          exact ⟨n, hn, p, hp, hke' ▸ hwp⟩
        exact (and_iff_right hh).symm
      · rw [if_neg hany]
        refine ⟨Or.inr rfl, iff_of_false (by simp) ?_⟩
        intro hall
        obtain ⟨n, hn, p, hp, hwp⟩ := (List.forall_mem_cons.mp hall).1
        apply hany
        rw [List.any_eq_true]
        refine ⟨p.would_know truths g.candidates,
          (mapWouldKnow_mem g truths ns ks hks _).mpr ⟨n, hn, p, hp, rfl⟩, ?_⟩
        simp [hwp]

/-- With a resolvable author and resolvable keys, `true_for` never crashes:
it returns a boolean. -/
theorem true_for_isOk (g : Game) (s : Statement) (cand : Candidate)
    (hauthor : (g.get_player s.author).isSome = true)
    (hres : ∀ f ∈ s.facts, factResolves g f = true) :
    s.true_for cand g = .ok true ∨ s.true_for cand g = .ok false := by
  obtain ⟨author, hp⟩ := Option.isSome_iff_exists.mp hauthor
  rw [true_for_eq g s cand author hp]
  by_cases hc : (lookupFact s.facts author.name).isSome = true ∧
      some (knows (author.get_compatible cand g.candidates)) ≠
        lookupFact s.facts author.name
  · rw [if_pos hc]
    exact Or.inr rfl
  · rw [if_neg hc]
    exact (checkFacts_spec g author _ s.facts hres).1

/-- The filtering loop, crash-free, returns exactly the candidates for which
the statement evaluates true, in order. -/
theorem filterTrueFor_ok (s : Statement) (g : Game) (l : List Candidate)
    (h : ∀ c ∈ l, s.true_for c g = .ok true ∨ s.true_for c g = .ok false) :
    ∃ l', filterTrueFor s g l = .ok l' ∧
      ∀ c, (c ∈ l' ↔ c ∈ l ∧ s.true_for c g = .ok true) := by
  induction l with
  | nil =>
    refine ⟨[], rfl, ?_⟩
    simp
  | cons cand rest ih =>
    obtain ⟨l₀, hl₀, hmem⟩ := ih (fun c hc => h c (List.mem_cons_of_mem _ hc))
    rcases h cand (List.mem_cons_self _ _) with htf | htf
    · refine ⟨cand :: l₀, ?_, ?_⟩
      · simp only [filterTrueFor, htf, hl₀]
        rfl
      · intro c
        constructor
        · intro hc
          rcases List.mem_cons.mp hc with hc | hc
          · exact ⟨hc ▸ List.mem_cons_self _ _, hc ▸ htf⟩
          · obtain ⟨h1, h2⟩ := (hmem c).mp hc
            exact ⟨List.mem_cons_of_mem _ h1, h2⟩
        · rintro ⟨h1, h2⟩
          rcases List.mem_cons.mp h1 with h1 | h1
          · exact h1 ▸ List.mem_cons_self _ _
          · exact List.mem_cons_of_mem _ ((hmem c).mpr ⟨h1, h2⟩)
    · refine ⟨l₀, ?_, ?_⟩
      · simp only [filterTrueFor, htf, hl₀]
        rfl
      · intro c
        rw [hmem c, List.mem_cons]
        constructor
        · rintro ⟨h1, h2⟩
          exact ⟨Or.inr h1, h2⟩
        · rintro ⟨h1 | h1, h2⟩
          · subst h1
            rw [htf] at h2
            simp at h2
          · exact ⟨h1, h2⟩

/-- Claim C2: for a game with resolvable statement names, `filter` keeps
exactly the candidates for which the statement evaluates true against the
pre-filter candidate set (which `true_for` receives whole, never a partially
filtered one), fails with `NoSolutionError` precisely when no candidate
passes, and raises no other error; the original game value is untouched. -/
theorem filter_spec (g : Game) (s : Statement)
    (hne : g.candidates ≠ [])
    (hnod : (g.players.map Player.name).Nodup)
    (har : ∀ c ∈ g.candidates, c.length = g.players.length)
    (hauthor : (g.get_player s.author).isSome = true)
    (hres : ∀ f ∈ s.facts, factResolves g f = true) :
    (∀ g', g.filter s = .ok g' →
      ∀ c, (c ∈ g'.candidates ↔ c ∈ g.candidates ∧ s.true_for c g = .ok true)) ∧
    (g.filter s = .error Err.NoSolutionError ↔
      ∀ c ∈ g.candidates, s.true_for c g ≠ .ok true) ∧
    (∀ e, g.filter s = .error e → e = Err.NoSolutionError) := by
  obtain ⟨l', hl', hmem⟩ := filterTrueFor_ok s g g.candidates
    (fun c _ => true_for_isOk g s c hauthor hres)
  rw [filter_eq g s l' hl']
  by_cases hemp : l' = []
  · rw [if_pos hemp]
    refine ⟨?_, ?_, ?_⟩
    · intro g' hg'
      cases hg'
    · refine iff_of_true rfl ?_
      intro c hc htrue
      have hmem' : c ∈ l' := (hmem c).mpr ⟨hc, htrue⟩
      rw [hemp] at hmem'
      exact absurd hmem' (List.not_mem_nil c)
    · intro e he
      cases he
      rfl
  · rw [if_neg hemp]
    obtain ⟨c0, rest, hc0⟩ : ∃ c0 rest, l' = c0 :: rest := by
      cases l' with
      | nil => exact absurd rfl hemp
      | cons a b => exact ⟨a, b, rfl⟩
    have hc0mem : c0 ∈ g.candidates ∧ s.true_for c0 g = .ok true :=
      (hmem c0).mp (hc0 ▸ List.mem_cons_self c0 rest)
    have hnames_len : g.get_player_names.length = g.players.length := by
      simp [Game.get_player_names]
    have hded : g.get_player_names.dedup = g.get_player_names :=
      List.dedup_eq_self.mpr hnod
    have hmk : mkGame l' (some g.get_player_names) =
        .ok ⟨l'.dedup, g.get_player_names.enum.map (fun p => ⟨p.2, p.1⟩)⟩ := by
      rw [hc0, mkGame_some_eq]
      rw [if_neg (fun hcon => hcon (by rw [hded]))]
      rw [if_neg (fun hcon => hcon (by rw [hnames_len, har c0 hc0mem.1]))]
    rw [hmk]
    refine ⟨?_, ?_, ?_⟩
    · intro g' hg'
      cases hg'
      intro c
      rw [show (Game.mk l'.dedup
        (g.get_player_names.enum.map (fun p => ⟨p.2, p.1⟩))).candidates = l'.dedup from rfl]
      rw [List.mem_dedup]
      exact hmem c
    · refine iff_of_false (by simp) ?_
      intro hall
      exact hall c0 hc0mem.1 hc0mem.2
    · intro e he
      cases he

/-- Witness for `filter_spec`: the first demo statement keeps (7,14). -/
theorem filter_spec_witness :
    ([7,14] : Candidate) ∈ demoGame1.candidates ↔
      (([7,14] : Candidate) ∈ demoGame.candidates ∧
        demoStmt1.true_for [7,14] demoGame = .ok true) :=
  (filter_spec demoGame demoStmt1 (by decide) (by decide) (by decide) rfl
    (by decide)).1 demoGame1 rfl [7,14]

/-- A successful dict lookup of a single-player key is a `facts` binding. -/
theorem lookupFact_some_mem (facts : List (Who × Knows)) (name : String)
    (k : Knows) (h : lookupFact facts name = some k) :
    (Who.single name, k) ∈ facts := by
  unfold lookupFact at h
  cases hf : facts.find? (fun f => decide (f.1 = Who.single name)) with
  | none => rw [hf] at h; cases h
  | some f =>
    rw [hf] at h
    obtain ⟨w, k'⟩ := f
    have h1 : w = Who.single name := by
      have := List.find?_some hf
      simpa using this
    have h2 : k' = k := by simpa using h
    have h3 := List.mem_of_find?_eq_some hf
    rw [← h1, ← h2]
    exact h3

/-- `knows` is two-valued. -/
theorem knows_yes_or_no (l : List Candidate) :
    knows l = Knows.yes ∨ knows l = Knows.no := by
  unfold knows
  by_cases h : l.length = 1 <;> simp [h]

/-- `knows_cases` of a non-empty constant list of definite values is that
value. -/
theorem knows_cases_const (n : Nat) (k : Knows) (hn : n ≠ 0)
    (hk : k ≠ Knows.maybe) :
    knows_cases (List.replicate n k) = k := by
  unfold knows_cases
  cases k with
  | maybe => exact absurd rfl hk
  | yes =>
    rw [if_pos ((all_eq_iff _ _).mpr (fun k hk => List.eq_of_mem_replicate hk))]
  | no =>
    rw [if_neg, if_pos ((all_eq_iff _ _).mpr (fun k hk => List.eq_of_mem_replicate hk))]
    intro hcon
    have := (all_eq_iff _ _).mp hcon Knows.no (List.mem_replicate.mpr ⟨hn, rfl⟩)
    cases this

/-- Two members of the same compatibility class induce the same class. -/
theorem get_compatible_congr (p : Player) (t c : Candidate)
    (cs : List Candidate) (ht : t ∈ p.get_compatible c cs) :
    p.get_compatible t cs = p.get_compatible c cs := by
  obtain ⟨-, hidx⟩ := (mem_get_compatible p c t cs).mp ht
  unfold Player.get_compatible
  apply List.filter_congr
  intro e _
  rw [decide_eq_decide, hidx]

/-- Evaluating a player's `would_know` over that player's own compatibility
class of `c` collapses to `knows` of the class: every truth in the class
induces the same class again. -/
theorem would_know_self (p : Player) (c : Candidate) (cs : List Candidate)
    (hc : c ∈ cs) :
    p.would_know (p.get_compatible c cs) cs = knows (p.get_compatible c cs) := by
  unfold Player.would_know
  have hmap : (p.get_compatible c cs).map
      (fun truth => knows (p.get_compatible truth cs)) =
      List.replicate (p.get_compatible c cs).length
        (knows (p.get_compatible c cs)) := by
    rw [List.eq_replicate_iff]
    constructor
    · simp
    · intro b hb
      obtain ⟨t, ht, hbt⟩ := List.mem_map.mp hb
      rw [← hbt, get_compatible_congr p t c cs ht]
  rw [hmap]
  apply knows_cases_const
  · intro hlen
    have hcc : c ∈ p.get_compatible c cs :=
      (mem_get_compatible p c c cs).mpr ⟨hc, rfl⟩
    rw [List.length_eq_zero.mp hlen] at hcc
    exact absurd hcc (List.not_mem_nil c)
  · rcases knows_yes_or_no (p.get_compatible c cs) with h | h <;>
      rw [h] <;> intro hcon <;> cases hcon

/-- The loop's per-entry conditions, spelled out by key shape: the author's
own single key reduces (via `would_know_self`) to the `knows` check, other
single keys are exact `would_know` checks, group keys are disjunctions. -/
theorem factHolds_iff (g : Game) (s : Statement) (cand : Candidate)
    (author : Player) (hcand : cand ∈ g.candidates)
    (hauthor : g.get_player s.author = some author) :
    ((∀ f ∈ s.facts, factHolds g (author.get_compatible cand g.candidates) f) ↔
      ((∀ k, (Who.single s.author, k) ∈ s.facts →
          knows (author.get_compatible cand g.candidates) = k) ∧
       (∀ n k, n ≠ s.author → (Who.single n, k) ∈ s.facts →
          ∀ p, g.get_player n = some p →
            p.would_know (author.get_compatible cand g.candidates) g.candidates = k) ∧
       (∀ ns k, (Who.group ns, k) ∈ s.facts →
          ∃ n ∈ ns, ∃ p, g.get_player n = some p ∧
            p.would_know (author.get_compatible cand g.candidates) g.candidates = k))) := by
  have hself := would_know_self author cand g.candidates hcand
  constructor
  · intro hall
    refine ⟨?_, ?_, ?_⟩
    · intro k hk
      have hh := hall _ hk author hauthor
      rw [hself] at hh
      exact hh
    · intro n k hne hk p hp
      exact hall _ hk p hp
    · intro ns k hk
      exact hall _ hk
  · rintro ⟨p1, p2, p3⟩ f hf
    obtain ⟨who, k⟩ := f
    cases who with
    | single n =>
      by_cases hn : n = s.author
      · subst hn
        intro p hp
        rw [hauthor] at hp
        cases hp
        rw [hself]
        exact p1 k hf
      · exact p2 n k hn hf
    | group ns => exact p3 ns k hf

/-- Claim C1: for a candidate of the game and a statement all of whose names
resolve, `true_for` returns true exactly when (1) every binding of the
author's own name demands exactly `knows` of the author's compatible set,
(2) every other single-player binding demands exactly that player's
`would_know` over the author's compatible set, and (3) every group binding
is matched by at least one member's `would_know`.  The author's key adds
nothing beyond (1): the loop re-checks it via `would_know`, which collapses
to the same `knows` value. -/
theorem true_for_spec (g : Game) (s : Statement) (cand : Candidate)
    (author : Player) (hcand : cand ∈ g.candidates)
    (hauthor : g.get_player s.author = some author)
    (hres : ∀ f ∈ s.facts, factResolves g f = true) :
    (s.true_for cand g = .ok true ↔
      ((∀ k, (Who.single s.author, k) ∈ s.facts →
          knows (author.get_compatible cand g.candidates) = k) ∧
       (∀ n k, n ≠ s.author → (Who.single n, k) ∈ s.facts →
          ∀ p, g.get_player n = some p →
            p.would_know (author.get_compatible cand g.candidates) g.candidates = k) ∧
       (∀ ns k, (Who.group ns, k) ∈ s.facts →
          ∃ n ∈ ns, ∃ p, g.get_player n = some p ∧
            p.would_know (author.get_compatible cand g.candidates) g.candidates = k))) := by
  have hname : author.name = s.author := get_player_name_eq g s.author author hauthor
  rw [true_for_eq g s cand author hauthor, hname]
  by_cases hc : (lookupFact s.facts s.author).isSome = true ∧
      some (knows (author.get_compatible cand g.candidates)) ≠
        lookupFact s.facts s.author
  · rw [if_pos hc]
    refine iff_of_false (by simp) ?_
    rintro ⟨p1, -, -⟩
    obtain ⟨k₀, hk₀⟩ := Option.isSome_iff_exists.mp hc.1
    apply hc.2
    rw [hk₀, p1 k₀ (lookupFact_some_mem s.facts s.author k₀ hk₀)]
  · rw [if_neg hc]
    exact ((checkFacts_spec g author _ s.facts hres).2).trans
      (factHolds_iff g s cand author hcand hauthor)

/-- Witness for `true_for_spec`: in the one-player witness game, the
statement "the author knows" is true for candidate (1). -/
theorem true_for_spec_witness : wStmt.true_for [1] wGame = .ok true := by
  refine (true_for_spec wGame wStmt [1] ⟨"0", 0⟩ (by decide) rfl (by decide)).mpr
    ⟨?_, ?_, ?_⟩
  · intro k hk
    have hk' : k = Knows.yes := by simpa [wStmt] using hk
    subst hk'
    rfl
  · intro n k hn hk
    have hk' : n = "0" := by
      have := (by simpa [wStmt] using hk : n = "0" ∧ k = Knows.yes)
      exact this.1
    exact absurd hk' hn
  · intro ns k hk
    simp [wStmt] at hk

end Cheryl
